import Mathlib

/-!
Verification of the text-to-STL extrusion engine (src/text_to_stl.py).

The development shallowly embeds the algorithmic core of create_text_stl:
the per-pixel box emitter (source lines 57 to 90), the per-glyph
accumulation loop (lines 46 to 90), the layout walk over the input string
(lines 26 to 103), mesh assembly (line 107) and the canonicalizing
rotate / translate / scale pass (lines 109 to 119).  Machine floats are
modelled as rationals; the external FreeType rasterizer is modelled as a
function from characters to bitmap data; the external STL writer is
modelled by the Option result of create: some m means the final mesh m is
handed to the writer, none models the "No valid characters to create
mesh" branch, which invokes neither the Canonicalizer statistics nor the
writer.
-/

namespace TextToStl

/-- A 3D point with rational coordinates (models a float vertex). -/
@[ext]
structure Vec3 where
  x : ℚ
  y : ℚ
  z : ℚ
deriving DecidableEq

/-- An ordered triangle: three vertices, winding order significant. -/
@[ext]
structure Tri where
  a : Vec3
  b : Vec3
  c : Vec3
deriving DecidableEq

def vzero : Vec3 := ⟨0, 0, 0⟩

/-- Degenerate default triangle, used only as the default value of List.getD. -/
def degTri : Tri := ⟨vzero, vzero, vzero⟩

def vadd (u v : Vec3) : Vec3 := ⟨u.x + v.x, u.y + v.y, u.z + v.z⟩

def vsmul (k : ℚ) (v : Vec3) : Vec3 := ⟨k * v.x, k * v.y, k * v.z⟩

def vsub (u v : Vec3) : Vec3 := ⟨u.x - v.x, u.y - v.y, u.z - v.z⟩

def dot (u v : Vec3) : ℚ := u.x * v.x + u.y * v.y + u.z * v.z

def cross (u v : Vec3) : Vec3 :=
  ⟨u.y * v.z - u.z * v.y, u.z * v.x - u.x * v.z, u.x * v.y - u.y * v.x⟩

/-- Right-handed normal direction determined by a triangle's winding. -/
def triNormal (t : Tri) : Vec3 := cross (vsub t.b t.a) (vsub t.c t.a)

def mapTri (f : Vec3 → Vec3) (t : Tri) : Tri := ⟨f t.a, f t.b, f t.c⟩

def triVerts (t : Tri) : List Vec3 := [t.a, t.b, t.c]

/-- All vertex slots of a triangle list in storage order, three per triangle,
mirroring the flattened numpy vectors array. -/
def vertsOf (l : List Tri) : List Vec3 := l.flatMap triVerts

/-- The eight corner vertices v1 to v8 of one pixel box, exactly as built in
source lines 58 to 67: front face at z = d, back face at z = 0. -/
def cellVerts (px py d : ℚ) : List Vec3 :=
  [⟨px, py, d⟩, ⟨px + 1, py, d⟩, ⟨px, py + 1, d⟩, ⟨px + 1, py + 1, d⟩,
   ⟨px, py, 0⟩, ⟨px + 1, py, 0⟩, ⟨px, py + 1, 0⟩, ⟨px + 1, py + 1, 0⟩]

/-- The twelve index triangles appended per lit pixel (source lines 74 to 90),
where c is len(vertices) at emission time. -/
def cellFaces (c : Nat) : List (Nat × Nat × Nat) :=
  [(c, c + 1, c + 2), (c + 1, c + 3, c + 2),
   (c + 4, c + 6, c + 5), (c + 5, c + 6, c + 7),
   (c, c + 2, c + 4), (c + 2, c + 6, c + 4),
   (c + 1, c + 5, c + 3), (c + 3, c + 5, c + 7),
   (c, c + 4, c + 1), (c + 1, c + 4, c + 5),
   (c + 2, c + 3, c + 6), (c + 3, c + 7, c + 6)]

/-- Index resolution (source lines 96 to 98): triangle i gets vertices[f[j]]. -/
def resolveTris (vs : List Vec3) (fs : List (Nat × Nat × Nat)) : List Tri :=
  fs.map fun f => ⟨vs.getD f.1 vzero, vs.getD f.2.1 vzero, vs.getD f.2.2 vzero⟩

/-- The BoxCell Emitter: the twelve resolved triangles of one pixel box. -/
def boxTris (px py d : ℚ) : List Tri := resolveTris (cellVerts px py d) (cellFaces 0)

/-- The unconditional body of the pixel loop on a lit cell (row, column):
extend the vertex list by the cell's corners and the face list by the
twelve index triangles based at the current vertex count. -/
def accumCell (offset d : ℚ) (acc : List Vec3 × List (Nat × Nat × Nat))
    (c : Nat × Nat) : List Vec3 × List (Nat × Nat × Nat) :=
  (acc.1 ++ cellVerts (offset + (c.2 : ℚ)) (c.1 : ℚ) d, acc.2 ++ cellFaces acc.1.length)

/-- One conditional step of the pixel loop (source lines 52 to 90). -/
def maskStep (ink : Nat → Nat → Bool) (offset d : ℚ)
    (acc : List Vec3 × List (Nat × Nat × Nat)) (c : Nat × Nat) :
    List Vec3 × List (Nat × Nat × Nat) :=
  if ink c.1 c.2 then accumCell offset d acc c else acc

/-- The Glyph Mesher accumulation loop (source lines 46 to 90): for y in
range(rows), for x in range(width), if the mask is lit, extend vertices
and faces. -/
def glyphAccum (rows width : Nat) (ink : Nat → Nat → Bool) (offset d : ℚ) :
    List Vec3 × List (Nat × Nat × Nat) :=
  (List.range rows).foldl
    (fun acc y =>
      (List.range width).foldl (fun acc2 x => maskStep ink offset d acc2 (y, x)) acc)
    ([], [])

/-- The Glyph Mesher output: the accumulated faces resolved against the
accumulated vertices (source lines 92 to 98). -/
def glyphTriangles (rows width : Nat) (ink : Nat → Nat → Bool) (offset d : ℚ) :
    List Tri :=
  resolveTris (glyphAccum rows width ink offset d).1 (glyphAccum rows width ink offset d).2

/-- Spec-side comparand: all grid cells (row, column) in row-major order. -/
def allCells (rows width : Nat) : List (Nat × Nat) :=
  (List.range rows).flatMap fun y => (List.range width).map fun x => (y, x)

/-- Spec-side comparand: the lit cells, visited in row-major order. -/
def trueCells (rows width : Nat) (ink : Nat → Nat → Bool) : List (Nat × Nat) :=
  (allCells rows width).filter fun c => ink c.1 c.2

/-- Row-major order on (row, column) cells: row ascending, column ascending
within a row. -/
def cellLt (a b : Nat × Nat) : Prop := a.1 < b.1 ∨ (a.1 = b.1 ∧ a.2 < b.2)

/-- Face-index block layout of successive cells, with vertex bases
b, b + 8, b + 16 and so on. -/
def facesFor (b : Nat) : List (Nat × Nat) → List (Nat × Nat × Nat)
  | [] => []
  | _ :: cs => cellFaces b ++ facesFor (b + 8) cs

/-- Output of one call into the external FreeType rasterizer: bitmap shape,
row-major coverage buffer, and the raw 26.6 fixed-point advance. -/
structure GlyphData where
  rows : Nat
  width : Nat
  buffer : List Nat
  advanceRaw : Nat

/-- advance_x = face.glyph.advance.x >> 6 (source line 34). -/
def advanceWidth (g : GlyphData) : Nat := g.advanceRaw >>> 6

/-- char_bitmap = buffer reshaped to rows by width, then compared > 0
(source lines 42 to 43): cell (y, x) is ink iff its coverage is nonzero. -/
def inkOf (g : GlyphData) (y x : Nat) : Bool :=
  decide (0 < g.buffer.getD (y * g.width + x) 0)

/-- The caller-supplied configuration of create_text_stl (source line 6). -/
structure Config where
  fontSize : ℤ
  extrusionDepth : ℚ
  letterSpacing : ℤ

/-- Source defaults: font_size 150, extrusion_depth 10, letter_spacing 50. -/
def defaultConfig : Config := ⟨150, 10, 50⟩

/-- Layout state: the cursor current_x and the accepted glyph meshes. -/
structure LayoutState where
  cursor : ℤ
  glyphs : List (List Tri)

/-- One iteration of the character loop (source lines 26 to 103): the space
character advances the cursor by font_size and emits nothing; a character
whose bitmap has zero rows or zero width advances by the advance width
only; otherwise the glyph is meshed at the current cursor, appended when
its vertex list is nonempty, and the cursor advances by advance width
plus letter_spacing. -/
def layoutStep (cfg : Config) (ras : Char → GlyphData) (st : LayoutState) (ch : Char) :
    LayoutState :=
  if ch = ' ' then { st with cursor := st.cursor + cfg.fontSize }
  else
    let g := ras ch
    if g.rows = 0 ∨ g.width = 0 then
      { st with cursor := st.cursor + (advanceWidth g : ℤ) }
    else
      let vf := glyphAccum g.rows g.width (inkOf g) (st.cursor : ℚ) cfg.extrusionDepth
      { cursor := st.cursor + (advanceWidth g : ℤ) + cfg.letterSpacing,
        glyphs := if vf.1.isEmpty then st.glyphs else st.glyphs ++ [resolveTris vf.1 vf.2] }

/-- The whole character loop: a single left-to-right pass from cursor 0. -/
def layout (cfg : Config) (ras : Char → GlyphData) (text : List Char) : LayoutState :=
  text.foldl (layoutStep cfg ras) ⟨0, []⟩

def xsOf (l : List Tri) : List ℚ := (vertsOf l).map Vec3.x

def ysOf (l : List Tri) : List ℚ := (vertsOf l).map Vec3.y

def zsOf (l : List Tri) : List ℚ := (vertsOf l).map Vec3.z

/-- np.mean over a flat list: sum divided by length. -/
def mean (l : List ℚ) : ℚ := l.sum / l.length

/-- np.min over a flat list; the code only evaluates it on nonempty data. -/
def listMin : List ℚ → ℚ
  | [] => 0
  | h :: t => t.foldl min h

/-- numpy-stl rotate([1, 0, 0], pi / 2) applied to a row vector v as v times
the rotation matrix [[1, 0, 0], [0, 0, -1], [0, 1, 0]] it builds, that is
(x, y, z) maps to (x, z, -y): the extrusion axis z becomes the vertical
axis y (source line 110). -/
def rotX90 (v : Vec3) : Vec3 := ⟨v.x, v.z, -v.y⟩

def rotateAll (l : List Tri) : List Tri := l.map (mapTri rotX90)

def translateAll (o : Vec3) (l : List Tri) : List Tri := l.map (mapTri fun v => vadd v o)

def scaleAll (k : ℚ) (l : List Tri) : List Tri := l.map (mapTri (vsmul k))

/-- The translation argument of source lines 113 to 115: the negated
per-axis statistics of the (already rotated) mesh. -/
def transOffset (l : List Tri) : Vec3 :=
  ⟨-(mean (xsOf l)), -(listMin (ysOf l)), -(mean (zsOf l))⟩

/-- scale_factor = 0.1 (source line 118). -/
def scale_factor : ℚ := 1 / 10

/-- The Canonicalizer (source lines 109 to 119): rotate every vertex, then
translate by the negated statistics of the rotated mesh, then scale
every coordinate uniformly. -/
def canonicalize (s : ℚ) (l : List Tri) : List Tri :=
  scaleAll s (translateAll (transOffset (rotateAll l)) (rotateAll l))

/-- The Mesh Assembler (source line 107): ordered concatenation of the
accepted glyph triangle lists. -/
def combineMeshes (gs : List (List Tri)) : List Tri := gs.flatten

/-- create_text_stl (source lines 6 to 125).  some m models the success
path: the canonicalized mesh m is handed to the writer by
combined_mesh.save.  none models the "No valid characters to create
mesh" branch, which runs neither the Canonicalizer nor the writer. -/
def create (cfg : Config) (ras : Char → GlyphData) (text : List Char) :
    Option (List Tri) :=
  let st := layout cfg ras text
  if st.glyphs.isEmpty then none
  else some (canonicalize scale_factor (combineMeshes st.glyphs))

/-- For each of the twelve box triangles, the outward unit direction of the
face it lies on: front, front, back, back, left, left, right, right,
bottom, bottom, top, top. -/
def outwardDirs : List Vec3 :=
  [⟨0, 0, 1⟩, ⟨0, 0, 1⟩, ⟨0, 0, -1⟩, ⟨0, 0, -1⟩,
   ⟨-1, 0, 0⟩, ⟨-1, 0, 0⟩, ⟨1, 0, 0⟩, ⟨1, 0, 0⟩,
   ⟨0, -1, 0⟩, ⟨0, -1, 0⟩, ⟨0, 1, 0⟩, ⟨0, 1, 0⟩]

/-- The face-plane offset for each box triangle: a vertex v lies on face i
iff dot v (outwardDirs[i]) equals this value. -/
def planeOffsets (px py d : ℚ) : List ℚ :=
  [d, d, 0, 0, -px, -px, px + 1, px + 1, -py, -py, py + 1, py + 1]

/-- Concrete fixture configuration: font size 5, depth 10, spacing 3. -/
def cfgTab : Config := ⟨5, 10, 3⟩

/-- Fixture rasterizer: every character gets a 1 by 1 fully covered bitmap
with raw advance 448, hence advance width 7. -/
def rasTab : Char → GlyphData := fun _ => ⟨1, 1, [255], 448⟩

/-- Fixture rasterizer: a 1 by 1 bitmap with zero coverage, raw advance 64. -/
def rasBlank : Char → GlyphData := fun _ => ⟨1, 1, [0], 64⟩

/-- Fixture glyph bitmap: one row, two columns, coverage 0 then 9. -/
def gHalf : GlyphData := ⟨1, 2, [0, 9], 64⟩

/-- Fixture one-triangle mesh. -/
def triW : Tri := ⟨⟨0, 0, 0⟩, ⟨1, 0, 0⟩, ⟨0, 1, 0⟩⟩

/-- Fixture two-glyph list. -/
def gsW : List (List Tri) := [[triW], [triW, triW]]

lemma length_cellVerts (px py d : ℚ) : (cellVerts px py d).length = 8 := rfl

lemma length_boxTris (px py d : ℚ) : (boxTris px py d).length = 12 := rfl

lemma foldl_flatMap {α β γ : Type} (l : List α) (g : α → List β) (f : γ → β → γ)
    (init : γ) :
    (l.flatMap g).foldl f init = l.foldl (fun a x => (g x).foldl f a) init := by
  induction l generalizing init with
  | nil => rfl
  | cons h t ih => simp [List.flatMap_cons, List.foldl_append, ih]

lemma glyphAccum_eq_foldl (rows width : Nat) (ink : Nat → Nat → Bool) (offset d : ℚ) :
    glyphAccum rows width ink offset d =
      (allCells rows width).foldl (maskStep ink offset d) ([], []) := by
  have h : (fun (acc : List Vec3 × List (Nat × Nat × Nat)) y =>
        (List.range width).foldl (fun acc2 x => maskStep ink offset d acc2 (y, x)) acc)
      = fun acc y =>
        (((List.range width).map fun x => (y, x)).foldl (maskStep ink offset d) acc) := by
    funext acc y
    rw [List.foldl_map]
  rw [glyphAccum, h, allCells, foldl_flatMap]

lemma foldl_maskStep_filter (ink : Nat → Nat → Bool) (offset d : ℚ) :
    ∀ (l : List (Nat × Nat)) (init : List Vec3 × List (Nat × Nat × Nat)),
      l.foldl (maskStep ink offset d) init =
        (l.filter fun c => ink c.1 c.2).foldl (accumCell offset d) init := by
  intro l
  induction l with
  | nil => intro init; rfl
  | cons c cs ih =>
    intro init
    by_cases h : ink c.1 c.2
    · simp [List.filter_cons, h, maskStep, ih]
    · simp [List.filter_cons, h, maskStep, ih]

lemma foldl_accumCell (offset d : ℚ) :
    ∀ (cs : List (Nat × Nat)) (vs : List Vec3) (fs : List (Nat × Nat × Nat)),
      cs.foldl (accumCell offset d) (vs, fs) =
        (vs ++ cs.flatMap fun c => cellVerts (offset + (c.2 : ℚ)) (c.1 : ℚ) d,
         fs ++ facesFor vs.length cs) := by
  intro cs
  induction cs with
  | nil => intro vs fs; simp [facesFor]
  | cons c cs ih =>
    intro vs fs
    rw [List.foldl_cons]
    have hstep : accumCell offset d (vs, fs) c =
        (vs ++ cellVerts (offset + (c.2 : ℚ)) (c.1 : ℚ) d, fs ++ cellFaces vs.length) := rfl
    rw [hstep, ih]
    refine Prod.ext ?_ ?_
    · simp [List.flatMap_cons, List.append_assoc]
    · simp [facesFor, List.length_append, length_cellVerts, List.append_assoc]

lemma getD_append_add (vs ws : List Vec3) (k : Nat) (v : Vec3) :
    (vs ++ ws).getD (vs.length + k) v = ws.getD k v := by
  induction vs with
  | nil => simp
  | cons a vs ih =>
    have h : (a :: vs).length + k = (vs.length + k) + 1 := by
      simp [List.length_cons]
      omega
    rw [List.cons_append, h, List.getD_cons_succ, ih]

lemma getD_append_len (vs ws : List Vec3) (v : Vec3) :
    (vs ++ ws).getD vs.length v = ws.getD 0 v := by
  simpa using getD_append_add vs ws 0 v

lemma resolveTris_append (vs : List Vec3) (fs gs : List (Nat × Nat × Nat)) :
    resolveTris vs (fs ++ gs) = resolveTris vs fs ++ resolveTris vs gs := by
  simp [resolveTris]

lemma resolve_cell (vs rest : List Vec3) (px py d : ℚ) :
    resolveTris (vs ++ (cellVerts px py d ++ rest)) (cellFaces vs.length) =
      boxTris px py d := by
  simp only [resolveTris, cellFaces, List.map_cons, List.map_nil, getD_append_len,
    getD_append_add]
  rfl

lemma resolve_facesFor (offset d : ℚ) :
    ∀ (cs : List (Nat × Nat)) (vs : List Vec3),
      resolveTris (vs ++ cs.flatMap fun c => cellVerts (offset + (c.2 : ℚ)) (c.1 : ℚ) d)
          (facesFor vs.length cs) =
        cs.flatMap fun c => boxTris (offset + (c.2 : ℚ)) (c.1 : ℚ) d := by
  intro cs
  induction cs with
  | nil => intro vs; simp [facesFor, resolveTris]
  | cons c cs ih =>
    intro vs
    simp only [List.flatMap_cons, facesFor, resolveTris_append]
    rw [resolve_cell]
    have h2 : vs.length + 8 =
        (vs ++ cellVerts (offset + (c.2 : ℚ)) (c.1 : ℚ) d).length := by
      simp [length_cellVerts]
    rw [h2, ← List.append_assoc, ih]

lemma glyphAccum_verts_faces (rows width : Nat) (ink : Nat → Nat → Bool)
    (offset d : ℚ) :
    glyphAccum rows width ink offset d =
      ((trueCells rows width ink).flatMap fun c =>
          cellVerts (offset + (c.2 : ℚ)) (c.1 : ℚ) d,
       facesFor 0 (trueCells rows width ink)) := by
  rw [glyphAccum_eq_foldl, foldl_maskStep_filter]
  have h := foldl_accumCell offset d (trueCells rows width ink) [] []
  simpa [trueCells] using h

lemma glyphTriangles_eq_flatMap (rows width : Nat) (ink : Nat → Nat → Bool)
    (offset d : ℚ) :
    glyphTriangles rows width ink offset d =
      (trueCells rows width ink).flatMap fun c =>
        boxTris (offset + (c.2 : ℚ)) (c.1 : ℚ) d := by
  rw [glyphTriangles, glyphAccum_verts_faces]
  simpa using resolve_facesFor offset d (trueCells rows width ink) []

lemma length_flatMap_boxTris (offset d : ℚ) (cs : List (Nat × Nat)) :
    (cs.flatMap fun c => boxTris (offset + (c.2 : ℚ)) (c.1 : ℚ) d).length =
      12 * cs.length := by
  induction cs with
  | nil => rfl
  | cons c cs ih =>
    simp only [List.flatMap_cons, List.length_append, ih, length_boxTris,
      List.length_cons]
    omega

lemma mem_allCells {rows width : Nat} {c : Nat × Nat} :
    c ∈ allCells rows width ↔ c.1 < rows ∧ c.2 < width := by
  constructor
  · intro h
    simp only [allCells, List.mem_flatMap, List.mem_map, List.mem_range] at h
    obtain ⟨y, hy, x, hx, rfl⟩ := h
    exact ⟨hy, hx⟩
  · intro h
    simp only [allCells, List.mem_flatMap, List.mem_map, List.mem_range]
    exact ⟨c.1, h.1, c.2, h.2, rfl⟩

lemma pairwise_allCells (rows width : Nat) : (allCells rows width).Pairwise cellLt := by
  induction rows with
  | zero => simp [allCells]
  | succ n ih =>
    rw [allCells, List.range_succ, List.flatMap_append]
    rw [List.pairwise_append]
    refine ⟨ih, ?_, ?_⟩
    · simp only [List.flatMap_cons, List.flatMap_nil, List.append_nil]
      rw [List.pairwise_map]
      exact (List.pairwise_lt_range width).imp fun h => Or.inr ⟨rfl, h⟩
    · intro a ha b hb
      simp only [List.flatMap_cons, List.flatMap_nil, List.append_nil, List.mem_map,
        List.mem_range] at hb
      obtain ⟨x, hx, rfl⟩ := hb
      have ha' : a.1 < n ∧ a.2 < width := mem_allCells.mp ha
      exact Or.inl ha'.1

lemma pairwise_trueCells (rows width : Nat) (ink : Nat → Nat → Bool) :
    (trueCells rows width ink).Pairwise cellLt :=
  List.Pairwise.sublist (List.filter_sublist _) (pairwise_allCells rows width)

lemma glyphAccum_fst_empty_iff (rows width : Nat) (ink : Nat → Nat → Bool)
    (offset d : ℚ) :
    (glyphAccum rows width ink offset d).1 = [] ↔ trueCells rows width ink = [] := by
  rw [glyphAccum_verts_faces]
  cases h : trueCells rows width ink with
  | nil => simp
  | cons c cs => simp [List.flatMap_cons, cellVerts]

lemma glyphTriangles_empty_iff (rows width : Nat) (ink : Nat → Nat → Bool)
    (offset d : ℚ) :
    glyphTriangles rows width ink offset d = [] ↔ trueCells rows width ink = [] := by
  rw [glyphTriangles_eq_flatMap]
  cases h : trueCells rows width ink with
  | nil => simp
  | cons c cs => simp [List.flatMap_cons, boxTris, resolveTris, cellFaces]

lemma trueCells_eq_nil {rows width : Nat} {ink : Nat → Nat → Bool}
    (h : ∀ y x, y < rows → x < width → ink y x = false) :
    trueCells rows width ink = [] := by
  rw [trueCells, List.filter_eq_nil_iff]
  intro c hc
  have hm := mem_allCells.mp hc
  simp [h c.1 c.2 hm.1 hm.2]

lemma mem_trueCells {rows width : Nat} {ink : Nat → Nat → Bool} {c : Nat × Nat} :
    c ∈ trueCells rows width ink ↔
      (c.1 < rows ∧ c.2 < width) ∧ ink c.1 c.2 = true := by
  rw [trueCells, List.mem_filter, mem_allCells]

lemma flatMap_segment_of_mem {α β : Type} {a : α} {l : List α} (f : α → List β)
    (h : a ∈ l) : ∃ s t, s ++ f a ++ t = l.flatMap f := by
  obtain ⟨s, t, rfl⟩ := List.append_of_mem h
  refine ⟨s.flatMap f, t.flatMap f, ?_⟩
  simp [List.flatMap_append, List.flatMap_cons, List.append_assoc]

lemma layoutStep_space (cfg : Config) (ras : Char → GlyphData) (st : LayoutState) :
    layoutStep cfg ras st ' ' = { st with cursor := st.cursor + cfg.fontSize } := by
  simp [layoutStep]

lemma layoutStep_empty_bitmap (cfg : Config) (ras : Char → GlyphData)
    (st : LayoutState) (ch : Char) (hch : ch ≠ ' ')
    (h : (ras ch).rows = 0 ∨ (ras ch).width = 0) :
    layoutStep cfg ras st ch =
      { st with cursor := st.cursor + (advanceWidth (ras ch) : ℤ) } := by
  simp [layoutStep, hch, h]

lemma layoutStep_normal (cfg : Config) (ras : Char → GlyphData)
    (st : LayoutState) (ch : Char) (hch : ch ≠ ' ')
    (hr : (ras ch).rows ≠ 0) (hw : (ras ch).width ≠ 0) :
    layoutStep cfg ras st ch =
      { cursor := st.cursor + (advanceWidth (ras ch) : ℤ) + cfg.letterSpacing,
        glyphs :=
          if glyphTriangles (ras ch).rows (ras ch).width (inkOf (ras ch))
              (st.cursor : ℚ) cfg.extrusionDepth = []
          then st.glyphs
          else st.glyphs ++ [glyphTriangles (ras ch).rows (ras ch).width (inkOf (ras ch))
              (st.cursor : ℚ) cfg.extrusionDepth] } := by
  have hcond : ¬((ras ch).rows = 0 ∨ (ras ch).width = 0) := by
    push_neg
    exact ⟨hr, hw⟩
  by_cases hg : glyphTriangles (ras ch).rows (ras ch).width (inkOf (ras ch))
      (st.cursor : ℚ) cfg.extrusionDepth = []
  · have hv : (glyphAccum (ras ch).rows (ras ch).width (inkOf (ras ch))
        (st.cursor : ℚ) cfg.extrusionDepth).1 = [] :=
      (glyphAccum_fst_empty_iff _ _ _ _ _).mpr ((glyphTriangles_empty_iff _ _ _ _ _).mp hg)
    simp [layoutStep, hch, hcond, hv, hg]
  · have hv : (glyphAccum (ras ch).rows (ras ch).width (inkOf (ras ch))
        (st.cursor : ℚ) cfg.extrusionDepth).1 ≠ [] := fun he =>
      hg ((glyphTriangles_empty_iff _ _ _ _ _).mpr ((glyphAccum_fst_empty_iff _ _ _ _ _).mp he))
    simp only [layoutStep, if_neg hch, if_neg hcond, List.isEmpty_iff, if_neg hv, if_neg hg]
    rfl

lemma layout_glyphs_sound (cfg : Config) (ras : Char → GlyphData) :
    ∀ (text : List Char) (st : LayoutState),
      (∀ g ∈ st.glyphs, g ≠ []) →
      ∀ g ∈ (text.foldl (layoutStep cfg ras) st).glyphs, g ≠ [] := by
  intro text
  induction text with
  | nil => intro st h; simpa using h
  | cons ch text ih =>
    intro st h
    rw [List.foldl_cons]
    apply ih
    intro g hg
    by_cases hsp : ch = ' '
    · subst hsp
      rw [layoutStep_space] at hg
      exact h g hg
    · by_cases hbm : (ras ch).rows = 0 ∨ (ras ch).width = 0
      · rw [layoutStep_empty_bitmap cfg ras st ch hsp hbm] at hg
        exact h g hg
      · push_neg at hbm
        rw [layoutStep_normal cfg ras st ch hsp hbm.1 hbm.2] at hg
        by_cases hg0 : glyphTriangles (ras ch).rows (ras ch).width (inkOf (ras ch))
            (st.cursor : ℚ) cfg.extrusionDepth = []
        · simp only [if_pos hg0] at hg
          exact h g hg
        · simp only [if_neg hg0, List.mem_append, List.mem_singleton] at hg
          rcases hg with hg | rfl
          · exact h g hg
          · exact hg0

lemma flatten_ne_nil {gs : List (List Tri)} (hne : gs ≠ [])
    (h : ∀ g ∈ gs, g ≠ []) : gs.flatten ≠ [] := by
  cases gs with
  | nil => exact absurd rfl hne
  | cons g rest =>
    have hg : g ≠ [] := h g (by simp)
    cases g with
    | nil => exact absurd rfl hg
    | cons t ts => simp

lemma vertsOf_ne_nil {l : List Tri} (h : l ≠ []) : vertsOf l ≠ [] := by
  cases l with
  | nil => exact absurd rfl h
  | cons t ts => simp [vertsOf, List.flatMap_cons, triVerts]

lemma ysOf_ne_nil {l : List Tri} (h : l ≠ []) : ysOf l ≠ [] := by
  cases l with
  | nil => exact absurd rfl h
  | cons t ts => simp [ysOf, vertsOf, List.flatMap_cons, triVerts]

lemma rotateAll_ne_nil {l : List Tri} (h : l ≠ []) : rotateAll l ≠ [] := by
  cases l with
  | nil => exact absurd rfl h
  | cons t ts => simp [rotateAll]

lemma vertsOf_map (f : Vec3 → Vec3) (l : List Tri) :
    vertsOf (l.map (mapTri f)) = (vertsOf l).map f := by
  induction l with
  | nil => rfl
  | cons t ts ih =>
    simp only [List.map_cons, vertsOf, List.flatMap_cons, List.map_append]
    have ih2 : (ts.map (mapTri f)).flatMap triVerts = (ts.flatMap triVerts).map f := ih
    rw [ih2]
    rfl

lemma xsOf_rotateAll (l : List Tri) : xsOf (rotateAll l) = xsOf l := by
  simp only [xsOf, rotateAll, vertsOf_map, List.map_map]
  rfl

lemma ysOf_translateAll (o : Vec3) (l : List Tri) :
    ysOf (translateAll o l) = (ysOf l).map fun v => v + o.y := by
  simp only [ysOf, translateAll, vertsOf_map, List.map_map]
  rfl

lemma ysOf_scaleAll (k : ℚ) (l : List Tri) :
    ysOf (scaleAll k l) = (ysOf l).map fun v => k * v := by
  simp only [ysOf, scaleAll, vertsOf_map, List.map_map]
  rfl

lemma min_add_right_q (a b c : ℚ) : min (a + c) (b + c) = min a b + c := by
  rcases le_total a b with h | h
  · rw [min_eq_left h, min_eq_left (by linarith)]
  · rw [min_eq_right h, min_eq_right (by linarith)]

lemma min_mul_left_nonneg (k a b : ℚ) (hk : 0 ≤ k) :
    min (k * a) (k * b) = k * min a b := by
  rcases le_total a b with h | h
  · rw [min_eq_left h, min_eq_left (mul_le_mul_of_nonneg_left h hk)]
  · rw [min_eq_right h, min_eq_right (mul_le_mul_of_nonneg_left h hk)]

lemma foldl_min_add (c : ℚ) : ∀ (t : List ℚ) (a : ℚ),
    (t.map fun v => v + c).foldl min (a + c) = t.foldl min a + c := by
  intro t
  induction t with
  | nil => intro a; rfl
  | cons b t ih =>
    intro a
    simp only [List.map_cons, List.foldl_cons]
    rw [min_add_right_q]
    exact ih (min a b)

lemma listMin_map_add (c : ℚ) {l : List ℚ} (h : l ≠ []) :
    listMin (l.map fun v => v + c) = listMin l + c := by
  cases l with
  | nil => exact absurd rfl h
  | cons a t =>
    simp only [List.map_cons, listMin]
    exact foldl_min_add c t a

lemma foldl_min_mul (k : ℚ) (hk : 0 ≤ k) : ∀ (t : List ℚ) (a : ℚ),
    (t.map fun v => k * v).foldl min (k * a) = k * t.foldl min a := by
  intro t
  induction t with
  | nil => intro a; rfl
  | cons b t ih =>
    intro a
    simp only [List.map_cons, List.foldl_cons]
    rw [min_mul_left_nonneg k a b hk]
    exact ih (min a b)

lemma listMin_map_mul (k : ℚ) (hk : 0 ≤ k) (l : List ℚ) :
    listMin (l.map fun v => k * v) = k * listMin l := by
  cases l with
  | nil => simp [listMin]
  | cons a t =>
    simp only [List.map_cons, listMin]
    exact foldl_min_mul k hk t a

lemma take_len_append {α : Type} (l r : List α) : (l ++ r).take l.length = l :=
  List.take_left l r

lemma drop_len_append {α : Type} (l r : List α) (n : Nat) :
    (l ++ r).drop (l.length + n) = r.drop n := by
  induction l with
  | nil => simp
  | cons a l ih =>
    have h : (a :: l).length + n = (l.length + n) + 1 := by
      simp only [List.length_cons]
      omega
    rw [List.cons_append, h, List.drop_succ_cons, ih]

lemma flatten_slice : ∀ (gs : List (List Tri)) (i : Nat), i < gs.length →
    ((gs.flatten.drop (((gs.take i).map List.length).sum)).take (gs.getD i []).length)
      = gs.getD i [] := by
  intro gs
  induction gs with
  | nil => intro i hi; exact absurd hi (by simp)
  | cons g gs ih =>
    intro i hi
    cases i with
    | zero =>
      simp only [List.take_zero, List.map_nil, List.sum_nil, List.drop_zero,
        List.flatten_cons, List.getD_cons_zero]
      exact take_len_append g gs.flatten
    | succ i =>
      have hi2 : i < gs.length := by simpa using hi
      simp only [List.take_succ_cons, List.map_cons, List.sum_cons, List.flatten_cons,
        List.getD_cons_succ]
      rw [drop_len_append]
      exact ih i hi2

lemma boxTris_explicit (px py d : ℚ) :
    boxTris px py d =
      [⟨⟨px, py, d⟩, ⟨px + 1, py, d⟩, ⟨px, py + 1, d⟩⟩,
       ⟨⟨px + 1, py, d⟩, ⟨px + 1, py + 1, d⟩, ⟨px, py + 1, d⟩⟩,
       ⟨⟨px, py, 0⟩, ⟨px, py + 1, 0⟩, ⟨px + 1, py, 0⟩⟩,
       ⟨⟨px + 1, py, 0⟩, ⟨px, py + 1, 0⟩, ⟨px + 1, py + 1, 0⟩⟩,
       ⟨⟨px, py, d⟩, ⟨px, py + 1, d⟩, ⟨px, py, 0⟩⟩,
       ⟨⟨px, py + 1, d⟩, ⟨px, py + 1, 0⟩, ⟨px, py, 0⟩⟩,
       ⟨⟨px + 1, py, d⟩, ⟨px + 1, py, 0⟩, ⟨px + 1, py + 1, d⟩⟩,
       ⟨⟨px + 1, py + 1, d⟩, ⟨px + 1, py, 0⟩, ⟨px + 1, py + 1, 0⟩⟩,
       ⟨⟨px, py, d⟩, ⟨px, py, 0⟩, ⟨px + 1, py, d⟩⟩,
       ⟨⟨px + 1, py, d⟩, ⟨px, py, 0⟩, ⟨px + 1, py, 0⟩⟩,
       ⟨⟨px, py + 1, d⟩, ⟨px + 1, py + 1, d⟩, ⟨px, py + 1, 0⟩⟩,
       ⟨⟨px + 1, py + 1, d⟩, ⟨px + 1, py + 1, 0⟩, ⟨px, py + 1, 0⟩⟩] := rfl

/-- C3: for every grid coordinate (x, y) and every extrusion depth d > 0,
the BoxCell Emitter produces exactly 8 vertices and 12 triangles forming a
closed axis-aligned box spanning [x, x+1] times [y, y+1] times [0, d]:
every triangle vertex is one of the 8 corner vertices, the corner vertex
list is exactly the 8 corners of that box, and each of the 12 triangles
lies on one of the 6 face planes (2 per face) with its winding normal a
positive multiple of that face's outward direction (front face toward +z,
back toward -z, the four sides outward in the x and y directions). -/
theorem boxcell_emitter_closed (px py d : ℚ) (hd : 0 < d) :
    (cellVerts px py d).length = 8 ∧
    (boxTris px py d).length = 12 ∧
    (∀ t ∈ boxTris px py d,
      t.a ∈ cellVerts px py d ∧ t.b ∈ cellVerts px py d ∧ t.c ∈ cellVerts px py d) ∧
    (∀ v : Vec3, v ∈ cellVerts px py d ↔
      ((v.x = px ∨ v.x = px + 1) ∧ (v.y = py ∨ v.y = py + 1) ∧ (v.z = 0 ∨ v.z = d))) ∧
    (∀ i, i < 12 → ∃ k : ℚ, 0 < k ∧
      triNormal ((boxTris px py d).getD i degTri) =
        vsmul k (outwardDirs.getD i vzero) ∧
      (∀ v ∈ triVerts ((boxTris px py d).getD i degTri),
        dot v (outwardDirs.getD i vzero) = (planeOffsets px py d).getD i 0)) := by
  refine ⟨rfl, rfl, ?_, ?_, ?_⟩
  · intro t ht
    rw [boxTris_explicit] at ht
    simp only [List.mem_cons, List.not_mem_nil, or_false] at ht
    rcases ht with rfl | rfl | rfl | rfl | rfl | rfl | rfl | rfl | rfl | rfl | rfl | rfl <;>
      exact ⟨by simp [cellVerts], by simp [cellVerts], by simp [cellVerts]⟩
  · intro v
    constructor
    · intro hv
      simp only [cellVerts, List.mem_cons, List.not_mem_nil, or_false] at hv
      rcases hv with rfl | rfl | rfl | rfl | rfl | rfl | rfl | rfl <;> simp
    · cases v with
      | mk vx vy vz =>
        rintro ⟨hx | hx, hy | hy, hz | hz⟩ <;> subst hx <;> subst hy <;> subst hz <;>
          simp [cellVerts]
  · intro i hi
    interval_cases i
    · refine ⟨1, one_pos, ?_, ?_⟩
      · show triNormal ⟨⟨px, py, d⟩, ⟨px + 1, py, d⟩, ⟨px, py + 1, d⟩⟩ = vsmul 1 ⟨0, 0, 1⟩
        ext <;> simp [triNormal, cross, vsub, vsmul]
      · show ∀ v ∈ triVerts ⟨⟨px, py, d⟩, ⟨px + 1, py, d⟩, ⟨px, py + 1, d⟩⟩,
            dot v ⟨0, 0, 1⟩ = d
        intro v hv
        simp only [triVerts, List.mem_cons, List.not_mem_nil, or_false] at hv
        rcases hv with rfl | rfl | rfl <;> simp [dot]
    · refine ⟨1, one_pos, ?_, ?_⟩
      · show triNormal ⟨⟨px + 1, py, d⟩, ⟨px + 1, py + 1, d⟩, ⟨px, py + 1, d⟩⟩ =
            vsmul 1 ⟨0, 0, 1⟩
        ext <;> simp [triNormal, cross, vsub, vsmul]
      · show ∀ v ∈ triVerts ⟨⟨px + 1, py, d⟩, ⟨px + 1, py + 1, d⟩, ⟨px, py + 1, d⟩⟩,
            dot v ⟨0, 0, 1⟩ = d
        intro v hv
        simp only [triVerts, List.mem_cons, List.not_mem_nil, or_false] at hv
        rcases hv with rfl | rfl | rfl <;> simp [dot]
    · refine ⟨1, one_pos, ?_, ?_⟩
      · show triNormal ⟨⟨px, py, 0⟩, ⟨px, py + 1, 0⟩, ⟨px + 1, py, 0⟩⟩ =
            vsmul 1 ⟨0, 0, -1⟩
        ext <;> simp [triNormal, cross, vsub, vsmul]
      · show ∀ v ∈ triVerts ⟨⟨px, py, 0⟩, ⟨px, py + 1, 0⟩, ⟨px + 1, py, 0⟩⟩,
            dot v ⟨0, 0, -1⟩ = 0
        intro v hv
        simp only [triVerts, List.mem_cons, List.not_mem_nil, or_false] at hv
        rcases hv with rfl | rfl | rfl <;> simp [dot]
    · refine ⟨1, one_pos, ?_, ?_⟩
      · show triNormal ⟨⟨px + 1, py, 0⟩, ⟨px, py + 1, 0⟩, ⟨px + 1, py + 1, 0⟩⟩ =
            vsmul 1 ⟨0, 0, -1⟩
        ext <;> simp [triNormal, cross, vsub, vsmul]
      · show ∀ v ∈ triVerts ⟨⟨px + 1, py, 0⟩, ⟨px, py + 1, 0⟩, ⟨px + 1, py + 1, 0⟩⟩,
            dot v ⟨0, 0, -1⟩ = 0
        intro v hv
        simp only [triVerts, List.mem_cons, List.not_mem_nil, or_false] at hv
        rcases hv with rfl | rfl | rfl <;> simp [dot]
    · refine ⟨d, hd, ?_, ?_⟩
      · show triNormal ⟨⟨px, py, d⟩, ⟨px, py + 1, d⟩, ⟨px, py, 0⟩⟩ = vsmul d ⟨-1, 0, 0⟩
        ext <;> simp [triNormal, cross, vsub, vsmul]
      · show ∀ v ∈ triVerts ⟨⟨px, py, d⟩, ⟨px, py + 1, d⟩, ⟨px, py, 0⟩⟩,
            dot v ⟨-1, 0, 0⟩ = -px
        intro v hv
        simp only [triVerts, List.mem_cons, List.not_mem_nil, or_false] at hv
        rcases hv with rfl | rfl | rfl <;> simp [dot]
    · refine ⟨d, hd, ?_, ?_⟩
      · show triNormal ⟨⟨px, py + 1, d⟩, ⟨px, py + 1, 0⟩, ⟨px, py, 0⟩⟩ =
            vsmul d ⟨-1, 0, 0⟩
        ext <;> simp [triNormal, cross, vsub, vsmul]
      · show ∀ v ∈ triVerts ⟨⟨px, py + 1, d⟩, ⟨px, py + 1, 0⟩, ⟨px, py, 0⟩⟩,
            dot v ⟨-1, 0, 0⟩ = -px
        intro v hv
        simp only [triVerts, List.mem_cons, List.not_mem_nil, or_false] at hv
        rcases hv with rfl | rfl | rfl <;> simp [dot]
    · refine ⟨d, hd, ?_, ?_⟩
      · show triNormal ⟨⟨px + 1, py, d⟩, ⟨px + 1, py, 0⟩, ⟨px + 1, py + 1, d⟩⟩ =
            vsmul d ⟨1, 0, 0⟩
        ext <;> simp [triNormal, cross, vsub, vsmul]
      · show ∀ v ∈ triVerts ⟨⟨px + 1, py, d⟩, ⟨px + 1, py, 0⟩, ⟨px + 1, py + 1, d⟩⟩,
            dot v ⟨1, 0, 0⟩ = px + 1
        intro v hv
        simp only [triVerts, List.mem_cons, List.not_mem_nil, or_false] at hv
        rcases hv with rfl | rfl | rfl <;> simp [dot]
    · refine ⟨d, hd, ?_, ?_⟩
      · show triNormal ⟨⟨px + 1, py + 1, d⟩, ⟨px + 1, py, 0⟩, ⟨px + 1, py + 1, 0⟩⟩ =
            vsmul d ⟨1, 0, 0⟩
        ext <;> simp [triNormal, cross, vsub, vsmul]
      · show ∀ v ∈ triVerts ⟨⟨px + 1, py + 1, d⟩, ⟨px + 1, py, 0⟩, ⟨px + 1, py + 1, 0⟩⟩,
            dot v ⟨1, 0, 0⟩ = px + 1
        intro v hv
        simp only [triVerts, List.mem_cons, List.not_mem_nil, or_false] at hv
        rcases hv with rfl | rfl | rfl <;> simp [dot]
    · refine ⟨d, hd, ?_, ?_⟩
      · show triNormal ⟨⟨px, py, d⟩, ⟨px, py, 0⟩, ⟨px + 1, py, d⟩⟩ = vsmul d ⟨0, -1, 0⟩
        ext <;> simp [triNormal, cross, vsub, vsmul]
      · show ∀ v ∈ triVerts ⟨⟨px, py, d⟩, ⟨px, py, 0⟩, ⟨px + 1, py, d⟩⟩,
            dot v ⟨0, -1, 0⟩ = -py
        intro v hv
        simp only [triVerts, List.mem_cons, List.not_mem_nil, or_false] at hv
        rcases hv with rfl | rfl | rfl <;> simp [dot]
    · refine ⟨d, hd, ?_, ?_⟩
      · show triNormal ⟨⟨px + 1, py, d⟩, ⟨px, py, 0⟩, ⟨px + 1, py, 0⟩⟩ =
            vsmul d ⟨0, -1, 0⟩
        ext <;> simp [triNormal, cross, vsub, vsmul]
      · show ∀ v ∈ triVerts ⟨⟨px + 1, py, d⟩, ⟨px, py, 0⟩, ⟨px + 1, py, 0⟩⟩,
            dot v ⟨0, -1, 0⟩ = -py
        intro v hv
        simp only [triVerts, List.mem_cons, List.not_mem_nil, or_false] at hv
        rcases hv with rfl | rfl | rfl <;> simp [dot]
    · refine ⟨d, hd, ?_, ?_⟩
      · show triNormal ⟨⟨px, py + 1, d⟩, ⟨px + 1, py + 1, d⟩, ⟨px, py + 1, 0⟩⟩ =
            vsmul d ⟨0, 1, 0⟩
        ext <;> simp [triNormal, cross, vsub, vsmul]
      · show ∀ v ∈ triVerts ⟨⟨px, py + 1, d⟩, ⟨px + 1, py + 1, d⟩, ⟨px, py + 1, 0⟩⟩,
            dot v ⟨0, 1, 0⟩ = py + 1
        intro v hv
        simp only [triVerts, List.mem_cons, List.not_mem_nil, or_false] at hv
        rcases hv with rfl | rfl | rfl <;> simp [dot]
    · refine ⟨d, hd, ?_, ?_⟩
      · show triNormal ⟨⟨px + 1, py + 1, d⟩, ⟨px + 1, py + 1, 0⟩, ⟨px, py + 1, 0⟩⟩ =
            vsmul d ⟨0, 1, 0⟩
        ext <;> simp [triNormal, cross, vsub, vsmul]
      · show ∀ v ∈ triVerts ⟨⟨px + 1, py + 1, d⟩, ⟨px + 1, py + 1, 0⟩, ⟨px, py + 1, 0⟩⟩,
            dot v ⟨0, 1, 0⟩ = py + 1
        intro v hv
        simp only [triVerts, List.mem_cons, List.not_mem_nil, or_false] at hv
        rcases hv with rfl | rfl | rfl <;> simp [dot]

/-- C3 witness: the emitter at grid coordinate (0, 0) with depth 1 > 0
produces exactly 12 triangles. -/
theorem boxcell_emitter_closed_witness : (boxTris 0 0 1).length = 12 :=
  (boxcell_emitter_closed 0 0 1 (by norm_num)).2.1

/-- C2: for every PixelMask (given as shape plus ink test) and placement
offset, the Glyph Mesher output is exactly the concatenation of the
emitter's boxes over the lit cells taken in row-major order (the spec-side
trueCells list, which is lexicographically sorted); hence its length is
exactly 12 times the number of lit cells, and an all-false mask yields the
empty list. -/
theorem glyph_mesher_pixel_count (rows width : Nat) (ink : Nat → Nat → Bool)
    (offset d : ℚ) :
    glyphTriangles rows width ink offset d =
      ((trueCells rows width ink).flatMap fun c =>
        boxTris (offset + (c.2 : ℚ)) (c.1 : ℚ) d) ∧
    (glyphTriangles rows width ink offset d).length =
      12 * (trueCells rows width ink).length ∧
    (trueCells rows width ink).Pairwise cellLt ∧
    ((∀ y x, y < rows → x < width → ink y x = false) →
      glyphTriangles rows width ink offset d = []) := by
  refine ⟨glyphTriangles_eq_flatMap rows width ink offset d, ?_,
    pairwise_trueCells rows width ink, ?_⟩
  · rw [glyphTriangles_eq_flatMap]
    exact length_flatMap_boxTris offset d _
  · intro h
    exact (glyphTriangles_empty_iff _ _ _ _ _).mpr (trueCells_eq_nil h)

/-- C2 witness: a 2 by 2 all-false mask yields an empty triangle list. -/
theorem glyph_mesher_pixel_count_witness :
    glyphTriangles 2 2 (fun _ _ => false) 0 5 = [] :=
  (glyph_mesher_pixel_count 2 2 (fun _ _ => false) 0 5).2.2.2 (fun _ _ _ _ => rfl)

/-- C9: a pixel counts as ink iff its coverage value is strictly greater
than zero; any lit cell in range contributes its full-depth box as a
contiguous segment of the Glyph Mesher output, and a zero-coverage cell
is not a lit cell at all. -/
theorem ink_threshold_strict (g : GlyphData) (offset d : ℚ) (y x : Nat)
    (hy : y < g.rows) (hx : x < g.width) :
    (inkOf g y x = true ↔ 0 < g.buffer.getD (y * g.width + x) 0) ∧
    ((y, x) ∈ trueCells g.rows g.width (inkOf g) ↔
      0 < g.buffer.getD (y * g.width + x) 0) ∧
    (0 < g.buffer.getD (y * g.width + x) 0 →
      ∃ s t, s ++ boxTris (offset + (x : ℚ)) (y : ℚ) d ++ t =
        glyphTriangles g.rows g.width (inkOf g) offset d) ∧
    (g.buffer.getD (y * g.width + x) 0 = 0 →
      (y, x) ∉ trueCells g.rows g.width (inkOf g)) := by
  have h1 : inkOf g y x = true ↔ 0 < g.buffer.getD (y * g.width + x) 0 := by
    simp [inkOf]
  refine ⟨h1, ?_, ?_, ?_⟩
  · rw [mem_trueCells]
    simp [hy, hx, h1]
  · intro hcov
    have hmem : (y, x) ∈ trueCells g.rows g.width (inkOf g) :=
      mem_trueCells.mpr ⟨⟨hy, hx⟩, h1.mpr hcov⟩
    rw [glyphTriangles_eq_flatMap]
    exact flatMap_segment_of_mem (fun c => boxTris (offset + (c.2 : ℚ)) (c.1 : ℚ) d) hmem
  · intro hcov hmem
    have h2 := h1.mp (mem_trueCells.mp hmem).2
    omega

/-- C9 witness: in the fixture bitmap gHalf (coverage row [0, 9]), the cell
(0, 1) has coverage 9 > 0 and its box is a contiguous segment of the glyph
mesh. -/
theorem ink_threshold_strict_witness :
    ∃ s t, s ++ boxTris ((0 : ℚ) + ((1 : Nat) : ℚ)) ((0 : Nat) : ℚ) 4 ++ t =
      glyphTriangles gHalf.rows gHalf.width (inkOf gHalf) 0 4 :=
  (ink_threshold_strict gHalf 0 4 0 1 (by decide) (by decide)).2.2.1 (by decide)

/-- C4 counterexample: the tab character is whitespace, yet with a
rasterizer that gives it a nonempty bitmap and advance width 7 the layout
step emits a glyph and advances the cursor by advance + spacing = 10, not
by the configured whitespace width (fontSize = 5): the code only
special-cases the space character (source line 28). -/
theorem whitespace_skip_counterexample :
    ('\t').isWhitespace = true ∧
    (layoutStep cfgTab rasTab ⟨0, []⟩ '\t').glyphs ≠ [] ∧
    (layoutStep cfgTab rasTab ⟨0, []⟩ '\t').cursor ≠ 0 + cfgTab.fontSize := by
  refine ⟨rfl, ?_, ?_⟩
  · have hl : ((layoutStep cfgTab rasTab ⟨0, []⟩ '\t').glyphs).length = 1 := rfl
    intro h
    rw [h] at hl
    exact absurd hl (by simp)
  · decide

/-- C4 (amended): for the space character (the only character the code
special-cases, source lines 28 to 30) the Layout Engine emits no
GlyphMesh and advances the cursor by exactly the configured whitespace
width fontSize, independent of the rasterizer; other whitespace
characters are processed like normal characters. -/
theorem space_skip (cfg : Config) (ras ras2 : Char → GlyphData) (st : LayoutState) :
    (layoutStep cfg ras st ' ').glyphs = st.glyphs ∧
    (layoutStep cfg ras st ' ').cursor = st.cursor + cfg.fontSize ∧
    layoutStep cfg ras st ' ' = layoutStep cfg ras2 st ' ' := by
  refine ⟨?_, ?_, ?_⟩ <;> simp [layoutStep]

/-- C5: for every non-space character the Layout Engine advances the
cursor: with an empty bitmap (zero rows or zero columns) it advances by
the advance width only and emits no glyph; otherwise it runs the Glyph
Mesher at the current cursor, appends the result iff it is nonempty, and
advances by advance width plus letter spacing; and the traversal is a
single left-to-right fold. -/
theorem layout_normal_char (cfg : Config) (ras : Char → GlyphData)
    (st : LayoutState) (ch : Char) (hch : ch ≠ ' ') :
    (((ras ch).rows = 0 ∨ (ras ch).width = 0) →
      layoutStep cfg ras st ch =
        { st with cursor := st.cursor + (advanceWidth (ras ch) : ℤ) }) ∧
    ((ras ch).rows ≠ 0 → (ras ch).width ≠ 0 →
      (layoutStep cfg ras st ch).cursor =
        st.cursor + (advanceWidth (ras ch) : ℤ) + cfg.letterSpacing ∧
      (layoutStep cfg ras st ch).glyphs =
        st.glyphs ++
          (if glyphTriangles (ras ch).rows (ras ch).width (inkOf (ras ch))
              (st.cursor : ℚ) cfg.extrusionDepth = []
           then []
           else [glyphTriangles (ras ch).rows (ras ch).width (inkOf (ras ch))
              (st.cursor : ℚ) cfg.extrusionDepth])) ∧
    (∀ t1 t2 : List Char,
      (t1 ++ t2).foldl (layoutStep cfg ras) st =
        t2.foldl (layoutStep cfg ras) (t1.foldl (layoutStep cfg ras) st)) := by
  refine ⟨fun h => layoutStep_empty_bitmap cfg ras st ch hch h, fun hr hw => ?_,
    fun t1 t2 => List.foldl_append _ _ t1 t2⟩
  rw [layoutStep_normal cfg ras st ch hch hr hw]
  by_cases hg : glyphTriangles (ras ch).rows (ras ch).width (inkOf (ras ch))
      (st.cursor : ℚ) cfg.extrusionDepth = []
  · simp [hg]
  · simp [hg]

/-- C5 witness: with the fixture rasterizer, processing the letter a from
cursor 0 advances the cursor by advance width 7 plus spacing 3. -/
theorem layout_normal_char_witness :
    (layoutStep cfgTab rasTab ⟨0, []⟩ 'a').cursor =
      0 + (advanceWidth (rasTab 'a') : ℤ) + cfgTab.letterSpacing :=
  ((layout_normal_char cfgTab rasTab ⟨0, []⟩ 'a' (by decide)).2.1 (by decide) (by decide)).1

/-- C10: a non-space character with a nonempty bitmap shape whose mask has
no lit cell appends no glyph, yet the cursor still advances by advance
width plus letter spacing. -/
theorem geometryless_char_advances (cfg : Config) (ras : Char → GlyphData)
    (st : LayoutState) (ch : Char) (hch : ch ≠ ' ')
    (hr : (ras ch).rows ≠ 0) (hw : (ras ch).width ≠ 0)
    (hink : ∀ y x, y < (ras ch).rows → x < (ras ch).width → inkOf (ras ch) y x = false) :
    (layoutStep cfg ras st ch).glyphs = st.glyphs ∧
    (layoutStep cfg ras st ch).cursor =
      st.cursor + (advanceWidth (ras ch) : ℤ) + cfg.letterSpacing := by
  have hg : glyphTriangles (ras ch).rows (ras ch).width (inkOf (ras ch))
      (st.cursor : ℚ) cfg.extrusionDepth = [] :=
    (glyphTriangles_empty_iff _ _ _ _ _).mpr (trueCells_eq_nil hink)
  rw [layoutStep_normal cfg ras st ch hch hr hw]
  simp [hg]

/-- C10 witness: the fixture rasterizer rasBlank gives the letter b a
1 by 1 bitmap of coverage zero; the step emits nothing but advances the
cursor by advance width 1 plus spacing 3. -/
theorem geometryless_char_advances_witness :
    (layoutStep cfgTab rasBlank ⟨0, []⟩ 'b').glyphs = [] :=
  (geometryless_char_advances cfgTab rasBlank ⟨0, []⟩ 'b' (by decide) (by decide)
    (by decide)
    (by
      intro y x hy hx
      simp [rasBlank] at hy hx
      have hy0 : y = 0 := by omega
      have hx0 : x = 0 := by omega
      subst hy0
      subst hx0
      rfl)).1

/-- C1: when the layout pass accepts zero non-empty glyphs (all whitespace,
all characters rasterizing empty, or the empty string), create returns
none (the EmptyResult outcome, distinct from some), which models skipping
the mesh writer; and whenever create succeeds, the combined mesh the
Canonicalizer statistics run over has at least one triangle and at least
one vertex, so the mean and min are never taken over zero vertices. -/
theorem create_empty_input_guard (cfg : Config) (ras : Char → GlyphData)
    (text : List Char) :
    ((layout cfg ras text).glyphs = [] → create cfg ras text = none) ∧
    (∀ m, create cfg ras text = some m →
      combineMeshes (layout cfg ras text).glyphs ≠ [] ∧
      vertsOf (combineMeshes (layout cfg ras text).glyphs) ≠ []) := by
  constructor
  · intro h
    simp [create, h]
  · intro m hm
    have hne : (layout cfg ras text).glyphs ≠ [] := by
      intro h
      simp [create, h] at hm
    have hall : ∀ g ∈ (layout cfg ras text).glyphs, g ≠ [] :=
      layout_glyphs_sound cfg ras text ⟨0, []⟩ (by simp)
    have hflat : (layout cfg ras text).glyphs.flatten ≠ [] := flatten_ne_nil hne hall
    exact ⟨hflat, vertsOf_ne_nil hflat⟩

/-- C1 witness: a single-space input yields no glyphs and create returns
none. -/
theorem create_empty_input_guard_witness : create cfgTab rasTab [' '] = none :=
  (create_empty_input_guard cfgTab rasTab [' ']).1 rfl

/-- C8: the Mesh Assembler's combined mesh is the ordered concatenation of
the accepted glyph triangle lists: the slice of the combined mesh starting
at the total length of the earlier glyphs reproduces glyph i verbatim
(same triangles, same order, same vertices within each triangle), and the
total length is the sum of the glyph lengths, so nothing is deduplicated
or welded away. -/
theorem assembler_concat_order (gs : List (List Tri)) (i : Nat) (hi : i < gs.length) :
    ((combineMeshes gs).drop (((gs.take i).map List.length).sum)).take
        (gs.getD i []).length = gs.getD i [] ∧
    (combineMeshes gs).length = (gs.map List.length).sum := by
  exact ⟨flatten_slice gs i hi, by simp [combineMeshes, List.length_flatten]⟩

/-- C8 witness: in the fixture two-glyph list, the slice at index 1
reproduces the second glyph. -/
theorem assembler_concat_order_witness :
    ((combineMeshes gsW).drop (((gsW.take 1).map List.length).sum)).take
        (gsW.getD 1 []).length = gsW.getD 1 [] :=
  (assembler_concat_order gsW 1 (by norm_num [gsW])).1

/-- C6: the Canonicalizer maps every vertex v of the combined mesh to
scale times (rotation of v plus the negated statistics vector), where the
rotation is the linear (origin-centered) quarter-turn about the baseline
x-axis sending the extrusion axis to the up axis and preserving lengths,
the statistics vector is (mean of the original horizontal axis, minimum of
the post-rotation up axis, mean of the post-rotation depth axis), the
resulting lowest point on the up axis is zero, and the scale factor is the
fixed 0.1. -/
theorem canonicalizer_pipeline (l : List Tri) (hl : l ≠ []) :
    canonicalize scale_factor l =
      l.map (mapTri fun v =>
        vsmul scale_factor (vadd (rotX90 v) (transOffset (rotateAll l)))) ∧
    transOffset (rotateAll l) =
      ⟨-(mean (xsOf l)), -(listMin (ysOf (rotateAll l))), -(mean (zsOf (rotateAll l)))⟩ ∧
    listMin (ysOf (canonicalize scale_factor l)) = 0 ∧
    scale_factor = 1 / 10 ∧
    rotX90 vzero = vzero ∧
    rotX90 ⟨0, 0, 1⟩ = ⟨0, 1, 0⟩ ∧
    rotX90 ⟨1, 0, 0⟩ = ⟨1, 0, 0⟩ ∧
    (∀ p q, rotX90 (vadd p q) = vadd (rotX90 p) (rotX90 q)) ∧
    (∀ k p, rotX90 (vsmul k p) = vsmul k (rotX90 p)) ∧
    (∀ p, dot (rotX90 p) (rotX90 p) = dot p p) := by
  have hys : ysOf (rotateAll l) ≠ [] := ysOf_ne_nil (rotateAll_ne_nil hl)
  refine ⟨?_, ?_, ?_, rfl, ?_, ?_, ?_, ?_, ?_, ?_⟩
  · simp only [canonicalize, scaleAll, translateAll, rotateAll, List.map_map]
    rfl
  · simp only [transOffset, xsOf_rotateAll]
  · rw [canonicalize, ysOf_scaleAll, ysOf_translateAll,
      listMin_map_mul scale_factor (by norm_num [scale_factor]), listMin_map_add _ hys]
    show scale_factor * (listMin (ysOf (rotateAll l)) + (transOffset (rotateAll l)).y) = 0
    simp [transOffset]
  · simp [rotX90, vzero]
  · simp [rotX90]
  · simp [rotX90]
  · intro p q
    simp [rotX90, vadd]
    ring
  · intro k p
    simp [rotX90, vsmul]
  · intro p
    simp [rotX90, dot]
    ring

/-- C6 witness: canonicalizing the fixture one-triangle mesh puts its
lowest point on the up axis at zero. -/
theorem canonicalizer_pipeline_witness :
    listMin (ysOf (canonicalize scale_factor [triW])) = 0 :=
  (canonicalizer_pipeline [triW] (by simp)).2.2.1

/-- C7: scaling the final mesh (produced with the fixed default scale
factor 0.1) by a factor k yields exactly the same mesh as running the
Canonicalizer with scale factor 0.1 times k on the same combined mesh. -/
theorem canonicalizer_scale_law (l : List Tri) (k : ℚ) :
    scaleAll k (canonicalize scale_factor l) = canonicalize (scale_factor * k) l ∧
    scale_factor = 1 / 10 := by
  refine ⟨?_, rfl⟩
  simp only [canonicalize, scaleAll, translateAll, rotateAll, List.map_map]
  refine List.map_congr_left fun t _ => ?_
  ext <;> simp [mapTri, vsmul, vadd, rotX90, Function.comp] <;> ring

end TextToStl
